import Mathlib

/-!
Verification development for the `qml-js-intellisense` extension's core
parsing engine (`src/parser.js` / `src/extension.ts`, constants in
`src/constants.js`).

The source scans text with JavaScript regular expressions.  Here each of
those patterns is embedded as an explicit character-list matcher that is
faithful to the ECMAScript matching semantics of that concrete pattern
(greedy/lazy quantifiers, backtracking, lookaheads, and the statefulness
of `lastIndex` on `g`-flagged regexes used with `RegExp.test`).  Strings
are modelled as `List Char` (the `.data` of a Lean `String`); the JS
whitespace class `\s` is modelled by its ASCII part, and `\w` is exactly
`[A-Za-z0-9_]` as in ECMAScript.
-/

namespace QmlJs

/-- ECMAScript `\s` (ASCII part): space, tab, newline, carriage return,
vertical tab, form feed. -/
def isJsWs (c : Char) : Bool :=
  c == ' ' || c == '\t' || c == '\n' || c == '\r' || c == '\x0b' || c == '\x0c'

/-- ECMAScript `\w`: ASCII letters, digits and underscore. -/
def isWordChar (c : Char) : Bool :=
  c.isAlpha || c.isDigit || c == '_'

/-- Strip an exact literal from the front of `cs`, returning the rest. -/
def stripPref : List Char → List Char → Option (List Char)
  | [], cs => some cs
  | _ :: _, [] => none
  | a :: l, c :: cs => if a == c then stripPref l cs else none

/-- Literal `pat` occurs at the front of `cs`. -/
def litPre : List Char → List Char → Bool
  | [], _ => true
  | _ :: _, [] => false
  | a :: l, c :: cs => a == c && litPre l cs

/-- Literal `pat` occurs somewhere in `cs` (substring test). -/
def hasSub (pat : List Char) : List Char → Bool
  | [] => litPre pat []
  | c :: t => litPre pat (c :: t) || hasSub pat t

/-- JavaScript `String.prototype.trim` (ASCII whitespace model). -/
def jsTrim (cs : List Char) : List Char :=
  ((cs.dropWhile isJsWs).reverse.dropWhile isJsWs).reverse

/-- JavaScript `str.split(sep)` for a single-character class separator:
splits at every matching character, keeping empty pieces, and returns
`[[]]` on the empty string. -/
def splitOnPred (p : Char → Bool) : List Char → List (List Char)
  | [] => [[]]
  | c :: t =>
    if p c then [] :: splitOnPred p t
    else
      match splitOnPred p t with
      | [] => [[c]]
      | h :: r => (c :: h) :: r

/-- JavaScript `content.split('\n')`. -/
def splitLines (cs : List Char) : List (List Char) :=
  splitOnPred (· == '\n') cs

/-- One `Import` record: `{file, alias}` (data model of `findJavaScriptImports`). -/
structure Import where
  file : String
  «alias» : String
  deriving Repr, DecidableEq

/-- The `([^"]+\.js)` capture of `QML_JS_IMPORT`: a non-empty run with at
least one character before a terminal `.js`. -/
def dotJsOk (file : List Char) : Bool :=
  decide (3 < file.length) && litPre ['s', 'j', '.'] file.reverse

/-- The literal `import` as characters. -/
def importL : List Char := ['i', 'm', 'p', 'o', 'r', 't']

/-- Matcher for `REGEX_PATTERNS.QML_JS_IMPORT`
(`import\s+"([^"]+\.js)"\s+as\s+(\w+)`, `src/constants.js`) anchored at the
start of `cs`.  Returns the two captures (file, alias) and the rest of the
input after the match.  Every quantifier in the pattern is followed by a
character its class excludes, so the greedy matching is deterministic; the
only backtracking point, `[^"]+\.js`, can only succeed on the full
non-quote run, which must end in `.js` with a non-empty stem. -/
def matchJsImportAt (cs : List Char) : Option (List Char × List Char × List Char) :=
  match stripPref importL cs with
  | none => none
  | some r1 =>
    if (r1.takeWhile isJsWs).isEmpty then none else
    match r1.dropWhile isJsWs with
    | [] => none
    | c2 :: r3 =>
      if c2 == '"' then
        let file := r3.takeWhile (fun c => !(c == '"'))
        if dotJsOk file then
          match r3.dropWhile (fun c => !(c == '"')) with
          | [] => none
          | c4 :: r5 =>
            if c4 == '"' then
              if (r5.takeWhile isJsWs).isEmpty then none else
              match stripPref ['a', 's'] (r5.dropWhile isJsWs) with
              | none => none
              | some r7 =>
                if (r7.takeWhile isJsWs).isEmpty then none else
                let r8 := r7.dropWhile isJsWs
                let al := r8.takeWhile isWordChar
                if al.isEmpty then none
                else some (file, al, r8.dropWhile isWordChar)
            else none
        else none
      else none

/-- Scan left to right for the first position where `QML_JS_IMPORT`
matches; return the rest of the input after that match (the `lastIndex`
advance of a successful `exec`). -/
def scanJsImport : List Char → Option (List Char)
  | [] => none
  | c :: t =>
    match matchJsImportAt (c :: t) with
    | some (_, _, r) => some r
    | none => scanJsImport t

/-- `REGEX_PATTERNS.QML_JS_IMPORT.test(line)` with the regex's mutable
`lastIndex` threaded explicitly (the pattern carries the `g` flag, so
`test` starts at `lastIndex`, advances it on success and resets it to `0`
on failure). -/
def jsImportTestG (line : List Char) (li : Nat) : Bool × Nat :=
  if line.length < li then (false, 0)
  else
    match scanJsImport (line.drop li) with
    | some r => (true, line.length - r.length)
    | none => (false, 0)

/-- Collector for `qmlContent.matchAll(REGEX_PATTERNS.QML_JS_IMPORT)`:
repeatedly find the next match, emit its captures, and continue after the
match end.  `fuel` bounds the recursion; every step consumes at least one
character, so `fuel = cs.length` processes the whole input. -/
def findImportsAux : Nat → List Char → List (List Char × List Char)
  | 0, _ => []
  | _ + 1, [] => []
  | fuel + 1, c :: t =>
    match matchJsImportAt (c :: t) with
    | some (f, a, r) => (f, a) :: findImportsAux fuel r
    | none => findImportsAux fuel t

/-- `findJavaScriptImports` (`src/parser.js` lines 15-27): all
`import "<path>.js" as <word>` matches of the content, in order, as
`Import` records.  The `matchAll` iterator is modelled from a fresh
`lastIndex = 0`. -/
def findJavaScriptImports (text : String) : List Import :=
  (findImportsAux text.data.length text.data).map fun fa => ⟨⟨fa.1⟩, ⟨fa.2⟩⟩

/-- Lookahead body `".*\.js"` of `REGEX_PATTERNS.QML_IMPORT`: after an
opening quote, scan for a later `.js"` with only `.`-matchable characters
(no newline, no carriage return) in between. -/
def dotJsQuoteScan : List Char → Bool
  | [] => false
  | c :: t =>
    litPre ['.', 'j', 's', '"'] (c :: t) ||
      (!(c == '\n') && !(c == '\r') && dotJsQuoteScan t)

/-- The `(?!".*\.js")` lookahead's positive body, tested at a position. -/
def jsPathLookahead : List Char → Bool
  | '"' :: t => dotJsQuoteScan t
  | _ => false

/-- Matcher for `REGEX_PATTERNS.QML_IMPORT`
(`^\s*import\s+(?!".*\.js")[^\n]+`), used as a whole-line test.  The
pattern is anchored; `\s+` after `import` backtracks, so the match
succeeds if SOME non-empty whitespace prefix leaves a position where the
negative lookahead holds and at least one non-newline character remains. -/
def qmlImportTest (line : List Char) : Bool :=
  match stripPref importL (line.dropWhile isJsWs) with
  | none => false
  | some r1 =>
    (List.range (r1.takeWhile isJsWs).length).any fun j =>
      let r := r1.drop (j + 1)
      !jsPathLookahead r &&
        (match r with
         | [] => false
         | c :: _ => !(c == '\n'))

/-- Imperative last-matching-line loop shared by `getLastQmlImportLine`:
`lastImportLine` starts at `-1` and is overwritten by each matching index. -/
def lastLineAux (p : List Char → Bool) : List (List Char) → Int → Nat → Int
  | [], acc, _ => acc
  | l :: t, acc, i => lastLineAux p t (if p l then (i : Int) else acc) (i + 1)

/-- `getLastQmlImportLine` (`src/parser.js` lines 242-253): last 0-based
line index matching `QML_IMPORT`, `-1` if none. -/
def getLastQmlImportLine (text : String) : Int :=
  lastLineAux qmlImportTest (splitLines text.data) (-1) 0

/-- The loop of `getLastJsImportLine`, threading the `g`-flagged regex's
`lastIndex` across the per-line `test` calls exactly as the shared
`REGEX_PATTERNS.QML_JS_IMPORT` object does in the source. -/
def lastJsAux : List (List Char) → Int → Nat → Nat → Int
  | [], acc, _, _ => acc
  | l :: t, acc, li, i =>
    let bl := jsImportTestG l li
    lastJsAux t (if bl.1 then (i : Int) else acc) bl.2 (i + 1)

/-- `getLastJsImportLine` (`src/parser.js` lines 257-268): last 0-based
line index on which `QML_JS_IMPORT.test` fires, `-1` if none; the regex
state starts at `lastIndex = 0` (fresh module state). -/
def getLastJsImportLine (text : String) : Int :=
  lastJsAux (splitLines text.data) (-1) 0 0

/-- A line for which `line.trim() === ''` holds. -/
def isBlankL (l : List Char) : Bool :=
  (jsTrim l).isEmpty

/-- `ImportInsertionPoint` data model (`{line, needsBlankLine,
needsTrailingBlankLine}`). -/
structure ImportInsertionPoint where
  line : Int
  needsBlankLine : Bool
  needsTrailingBlankLine : Bool
  deriving Repr, DecidableEq

/-- `getJsImportInsertionPoint` (`src/parser.js` lines 276-313): decide
where a new JS import line is spliced. -/
def getJsImportInsertionPoint (text : String) : ImportInsertionPoint :=
  let lines := splitLines text.data
  let lastJs := getLastJsImportLine text
  let lastQml := getLastQmlImportLine text
  if 0 ≤ lastJs then
    let insertLine := lastJs + 1
    let hasTrailing :=
      decide (insertLine < (lines.length : Int)) && isBlankL (lines.getD insertLine.toNat [])
    ⟨insertLine, false, !hasTrailing⟩
  else if 0 ≤ lastQml then
    let nextLine := lastQml + 1
    let hasBlank :=
      decide (nextLine < (lines.length : Int)) && isBlankL (lines.getD nextLine.toNat [])
    ⟨if hasBlank then lastQml + 2 else lastQml + 1, !hasBlank, true⟩
  else
    let hasContent := decide (0 < lines.length) && !isBlankL (lines.getD 0 [])
    ⟨0, false, hasContent⟩

/-! ## Path resolution (`src/utils.js`)

`resolveJsFilePath` composes Node's `path.dirname` and `path.resolve`.
The `path` module is an external collaborator; `pathDirname` and
`pathResolve` are modelled from Node's documented POSIX semantics, with
the process working directory (only relevant when both arguments are
relative) modelled as `/`. -/

/-- Node POSIX `path.dirname`: scan from the end, skip trailing
separators, skip the basename, and cut at the separator found there. -/
def pathDirname (p : String) : String :=
  match p.data with
  | [] => "."
  | c :: rest =>
    let hasRoot := c == '/'
    let r1 := (c :: rest).reverse.dropWhile (· == '/')
    let r2 := r1.dropWhile (fun d => !(d == '/'))
    match r2 with
    | [] => if hasRoot then "/" else "."
    | [_] => if hasRoot then "/" else "."
    | [_, _] => if hasRoot then "//" else ⟨((c :: rest).take 1)⟩
    | _ => ⟨(c :: rest).take (r2.length - 1)⟩

/-- Normalisation step of Node POSIX `path.resolve` on an absolute
joined path: drop empty and `.` segments, let `..` pop (and vanish at
the root). -/
def normSegs (segs : List (List Char)) : List (List Char) :=
  segs.foldl
    (fun stack seg =>
      if seg = [] ∨ seg = ['.'] then stack
      else if seg = ['.', '.'] then stack.dropLast
      else stack ++ [seg])
    []

/-- Join normalised segments back into an absolute path. -/
def joinSegs (segs : List (List Char)) : List Char :=
  segs.foldl (fun acc seg => acc ++ '/' :: seg) []

/-- Node POSIX `path.resolve(dir, p)` with `cwd` modelled as `/`. -/
def pathResolve (dir p : String) : String :=
  let joined : List Char :=
    if p.data.head? == some '/' then p.data
    else if dir.data.head? == some '/' then dir.data ++ '/' :: p.data
    else '/' :: (dir.data ++ '/' :: p.data)
  let segs := normSegs (splitOnPred (· == '/') joined)
  if segs.isEmpty then "/" else ⟨joinSegs segs⟩

/-- `resolveJsFilePath` (`src/utils.js` lines 24-27). -/
def resolveJsFilePath (documentPath jsImportPath : String) : String :=
  pathResolve (pathDirname documentPath) jsImportPath

/-- `findJsFileForAlias` (`src/parser.js` lines 157-167): extract the
extracted imports, look up the FIRST one whose alias equals
the query (`Array.prototype.find`), and resolve its file against the
document's directory; `null` when absent.  The `vscode.TextDocument`
argument is modelled by its text and file-system path. -/
def findJsFileForAlias (text docPath al : String) : Option String :=
  match (findJavaScriptImports text).find? (fun imp => imp.alias == al) with
  | none => none
  | some imp => some (resolveJsFilePath docPath imp.file)

/-! ## JSDoc extraction (`extractJSDoc`, `src/parser.js` lines 35-87) -/

/-- One `ParamDoc` record: `{type, name, description}`. -/
structure ParamDoc where
  type : String
  name : String
  description : String
  deriving Repr, DecidableEq

/-- Result record of `extractJSDoc`. -/
structure JSDocInfo where
  documentation : String
  returnType : String
  paramDocs : List ParamDoc
  deriving Repr, DecidableEq

/-- `REGEX_PATTERNS.JSDOC_END.test(line)`: the line contains the literal
substring matched by the pattern. -/
def containsJsdocEnd (l : List Char) : Bool :=
  hasSub ['*', '/'] l

/-- `REGEX_PATTERNS.JSDOC_START.test(line)`. -/
def containsJsdocStart (l : List Char) : Bool :=
  hasSub ['/', '*', '*'] l

/-- The backward scan of `extractJSDoc`: starting from
`functionLineIndex - 1` (the argument here is `functionLineIndex`
itself, so `findJsdocEnd lines (j+1)` inspects index `j`), walk upward
while lines are non-blank and lack `*/`; return the index of the line
holding the documentation terminator, or `none` when a blank line or
the file start is reached first. -/
def findJsdocEnd (lines : List (List Char)) : Nat → Option Nat
  | 0 => none
  | j + 1 =>
    let l := lines.getD j []
    if containsJsdocEnd l then some j
    else if isBlankL l then none
    else findJsdocEnd lines j

/-- The upward collection loop of `extractJSDoc`: from the terminator
line at index `j`, collect lines downward-to-upward until one containing
`/**` is included (or the file start is passed), yielding the block in
file order. -/
def jsdocBlockAux (lines : List (List Char)) : Nat → List (List Char)
  | 0 => [lines.getD 0 []]
  | k + 1 =>
    let l := lines.getD (k + 1) []
    if containsJsdocStart l then [l] else jsdocBlockAux lines k ++ [l]

/-- `jsdocLines.join('\n')`. -/
def joinNl : List (List Char) → List Char
  | [] => []
  | [l] => l
  | l :: t => l ++ '\n' :: joinNl t

/-- The `(\S+)(?:\s+-\s+(.+?))?(?=\n|$)` tail of
`REGEX_PATTERNS.JSDOC_PARAM`, starting at a position that must begin the
parameter name.  The lazy `(.+?)` before the `(?=\n|$)` lookahead takes
characters (which `.` forbids to be `\n` or `\r`) until the next `\n` or
the end; hitting `\r` first makes the optional description group fail. -/
def takeToNl : List Char → Option (List Char × List Char)
  | [] => some ([], [])
  | '\n' :: t => some ([], '\n' :: t)
  | '\r' :: _ => none
  | c :: t => (takeToNl t).map fun dr => (c :: dr.1, dr.2)

/-- Name-and-description tail of the `@param` pattern; returns
`(name, description?, rest)`.  When the optional description group
fails, the whole-pattern lookahead `(?=\n|$)` must hold right after the
name; shrinking the greedy `\S+` or the whitespace runs can never
produce an alternative match, so no further backtracking is modelled. -/
def matchParamTail (r5 : List Char) : Option (List Char × Option (List Char) × List Char) :=
  let name := r5.takeWhile (fun c => !isJsWs c)
  if name.isEmpty then none else
  let r6 := r5.dropWhile (fun c => !isJsWs c)
  let tryDesc : Option (List Char × List Char) :=
    if (r6.takeWhile isJsWs).isEmpty then none else
    match r6.dropWhile isJsWs with
    | '-' :: r7 =>
      if (r7.takeWhile isJsWs).isEmpty then none else
      match takeToNl (r7.dropWhile isJsWs) with
      | none => none
      | some dr => if dr.1.isEmpty then none else some dr
    | _ => none
  match tryDesc with
  | some dr => some (name, some dr.1, dr.2)
  | none =>
    match r6 with
    | [] => some (name, none, [])
    | '\n' :: _ => some (name, none, r6)
    | _ => none

/-- The `\{([^}]+)\}` core of the optional type annotation group of the
`@param` and `@returns` patterns; returns the captured type and the rest
right after the closing brace. -/
def typeAnnCore (rk : List Char) : Option (List Char × List Char) :=
  match rk with
  | '{' :: t =>
    let ty := t.takeWhile (fun c => !(c == '}'))
    if ty.isEmpty then none else
    match t.dropWhile (fun c => !(c == '}')) with
    | '}' :: r4 => some (ty, r4)
    | _ => none
  | _ => none

/-- The full optional `(?:\{([^}]+)\}\s+)?` group as used by the
`@param` pattern, whose continuation (`\S+`) can never consume the
whitespace the group's trailing `\s+` would give back. -/
def tryTypeAnn (r2 : List Char) : Option (List Char × List Char) :=
  match typeAnnCore r2 with
  | some tyr =>
    if (tyr.2.takeWhile isJsWs).isEmpty then none
    else some (tyr.1, tyr.2.dropWhile isJsWs)
  | none => none

/-- Matcher for `REGEX_PATTERNS.JSDOC_PARAM`
(`@param\s+(?:\{([^}]+)\}\s+)?(\S+)(?:\s+-\s+(.+?))?(?=\n|$)`) anchored
at a position; returns `(type?, name, description?, rest)`.  If the
continuation after a successful type annotation fails, the engine
retries with the optional group skipped. -/
def matchParamAt (cs : List Char) : Option (Option (List Char) × List Char × Option (List Char) × List Char) :=
  match stripPref ['@', 'p', 'a', 'r', 'a', 'm'] cs with
  | none => none
  | some r1 =>
    if (r1.takeWhile isJsWs).isEmpty then none else
    let r2 := r1.dropWhile isJsWs
    match tryTypeAnn r2 with
    | some tyr =>
      (match matchParamTail tyr.2 with
       | some ndr => some (some tyr.1, ndr)
       | none => (matchParamTail r2).map fun ndr => (none, ndr))
    | none => (matchParamTail r2).map fun ndr => (none, ndr)

/-- Collector for `jsdocContent.matchAll(REGEX_PATTERNS.JSDOC_PARAM)`. -/
def paramMatchesAux : Nat → List Char → List (Option (List Char) × List Char × Option (List Char))
  | 0, _ => []
  | _ + 1, [] => []
  | fuel + 1, c :: t =>
    match matchParamAt (c :: t) with
    | some (ty, n, d, r) => (ty, n, d) :: paramMatchesAux fuel r
    | none => paramMatchesAux fuel t

/-- Matcher for the part of `REGEX_PATTERNS.JSDOC_RETURN` after the
`@returns?` keyword (`\s+(?:\{([^}]+)\}\s+)?(.+?)(?=\n\s*\*\s*@|\*\/|$)`,
`s` flag): the greedy `\s+` backtracks from its longest run; at each
stop the optional type annotation is tried first, then skipped.  Because
the `s`-flagged lazy `(.+?)` can always extend to the end of the input
(where `$` satisfies the lookahead), each alternative succeeds exactly
when at least one character remains for it.  Only the type capture is
consumed by the caller. -/
def returnTailAt (r : List Char) : Option (Option (List Char)) :=
  let attempt : Nat → Option (Option (List Char)) := fun k =>
    let rk := r.drop k
    match typeAnnCore rk with
    | some tyr =>
      if !(tyr.2.takeWhile isJsWs).isEmpty && decide (2 ≤ tyr.2.length) then
        some (some tyr.1)
      else some none
    | none => if rk.isEmpty then none else some none
  let rec go : Nat → Option (Option (List Char))
    | 0 => none
    | k + 1 =>
      match attempt (k + 1) with
      | some a => some a
      | none => go k
  go (r.takeWhile isJsWs).length

/-- Matcher for `REGEX_PATTERNS.JSDOC_RETURN` anchored at a position;
the greedy `s?` cannot be backtracked into a success, so `@returns` is
preferred and `@return` used otherwise. -/
def matchReturnAt (cs : List Char) : Option (Option (List Char)) :=
  match stripPref ['@', 'r', 'e', 't', 'u', 'r', 'n'] cs with
  | none => none
  | some r1 =>
    match r1 with
    | 's' :: r2 => returnTailAt r2
    | _ => returnTailAt r1

/-- First match of the (non-global) `JSDOC_RETURN` pattern in the
content. -/
def scanReturn : List Char → Option (Option (List Char))
  | [] => none
  | c :: t =>
    match matchReturnAt (c :: t) with
    | some g => some g
    | none => scanReturn t

/-- The `(?=\n\s*\*\s*@)` lookahead of `JSDOC_DESCRIPTION`: a newline,
then whitespace, a `*`, whitespace, and `@`. -/
def descLookahead : List Char → Bool
  | '\n' :: t =>
    (match t.dropWhile isJsWs with
     | '*' :: u =>
       (match u.dropWhile isJsWs with
        | '@' :: _ => true
        | _ => false)
     | _ => false)
  | _ => false

/-- The lazy `(.+?)` (with `s` flag) of `JSDOC_DESCRIPTION`: collect at
least one character, stopping at the first cut where the lookahead or
the end of input holds. -/
def descTake : List Char → Option (List Char)
  | [] => none
  | c :: t =>
    if t.isEmpty then some [c]
    else if descLookahead t then some [c]
    else (descTake t).map (c :: ·)

/-- Matcher for `REGEX_PATTERNS.JSDOC_DESCRIPTION`
(`\/\*\*\s*\n?\s*\*\s*(.+?)(?=\n\s*\*\s*@|$)`, `s` flag) anchored at a
position; returns the description capture.  `\s*\n?\s*` collapses to a
single maximal whitespace run (no run character can satisfy the
following `\*`); if nothing follows the whitespace after the `*`, the
engine backtracks that last `\s*` by one character so the lazy `(.+?)`
can consume it. -/
def matchDescAt (cs : List Char) : Option (List Char) :=
  match stripPref ['/', '*', '*'] cs with
  | none => none
  | some r1 =>
    match r1.dropWhile isJsWs with
    | '*' :: r3 =>
      let ws := r3.takeWhile isJsWs
      let r4 := r3.dropWhile isJsWs
      if r4.isEmpty then
        if ws.isEmpty then none else some [ws.getLast!]
      else descTake r4
    | _ => none

/-- First match of the (non-global) `JSDOC_DESCRIPTION` pattern. -/
def scanDesc : List Char → Option (List Char)
  | [] => none
  | c :: t =>
    match matchDescAt (c :: t) with
    | some d => some d
    | none => scanDesc t

/-- Matcher for the replacement pattern `\n\s*\*\s*` of
`descMatch[1].replace(/\n\s*\*\s*/g, ' ')`; returns the rest after a
match at this position. -/
def matchNlStar : List Char → Option (List Char)
  | '\n' :: t =>
    (match t.dropWhile isJsWs with
     | '*' :: u => some (u.dropWhile isJsWs)
     | _ => none)
  | _ => none

/-- Global replacement of `\n\s*\*\s*` by a single space (fuelled; every
match consumes at least two characters). -/
def replaceNlStar : Nat → List Char → List Char
  | 0, cs => cs
  | _ + 1, [] => []
  | fuel + 1, c :: t =>
    match matchNlStar (c :: t) with
    | some r => ' ' :: replaceNlStar fuel r
    | none => c :: replaceNlStar fuel t

/-- Build one `ParamDoc` from a `JSDOC_PARAM` match, with the source's
defaults `match[1] || 'any'` and `match[3] || ''`. -/
def mkParamDoc (m : Option (List Char) × List Char × Option (List Char)) : ParamDoc :=
  ⟨⟨m.1.getD ['a', 'n', 'y']⟩, ⟨m.2.1⟩, ⟨m.2.2.getD []⟩⟩

/-- `extractJSDoc` (`src/parser.js` lines 35-87): scan backward from the
function line for an adjacent documentation block and extract the
description, `@param` records and `@returns` type; every piece defaults
(`documentation=''`, `returnType='any'`, `paramDocs=[]`) when absent. -/
def extractJSDoc (lines : List (List Char)) (functionLineIndex : Nat) : JSDocInfo :=
  match findJsdocEnd lines functionLineIndex with
  | none => ⟨"", "any", []⟩
  | some j =>
    let content := joinNl (jsdocBlockAux lines j)
    let doc : String :=
      match scanDesc content with
      | some d => ⟨jsTrim (replaceNlStar d.length d)⟩
      | none => ""
    let ps := (paramMatchesAux content.length content).map mkParamDoc
    let rt : String :=
      match scanReturn content with
      | some (some ty) => ⟨ty⟩
      | _ => "any"
    ⟨doc, rt, ps⟩

/-! ## Function extraction (`parseJavaScriptFunctions`, `src/parser.js`
lines 94-124) -/

/-- One `FunctionInfo` record. -/
structure FunctionInfo where
  name : String
  params : List String
  paramDocs : List ParamDoc
  returnType : String
  documentation : String
  deriving Repr, DecidableEq

/-- The `(.*?)\)` tail of `REGEX_PATTERNS.FUNCTION_DECLARATION`: the
lazy group takes non-newline characters up to the first `)`. -/
def rawParamsTake : List Char → Option (List Char)
  | [] => none
  | ')' :: _ => some []
  | '\n' :: _ => none
  | '\r' :: _ => none
  | c :: t => (rawParamsTake t).map (c :: ·)

/-- Matcher for `REGEX_PATTERNS.FUNCTION_DECLARATION`
(`^function\s+(\w+)\s*\((.*?)\)`), anchored at the line start; returns
`(name, raw parameter list)`. -/
def matchFunDecl (line : List Char) : Option (List Char × List Char) :=
  match stripPref ['f', 'u', 'n', 'c', 't', 'i', 'o', 'n'] line with
  | none => none
  | some r1 =>
    if (r1.takeWhile isJsWs).isEmpty then none else
    let r2 := r1.dropWhile isJsWs
    let name := r2.takeWhile isWordChar
    if name.isEmpty then none else
    match (r2.dropWhile isWordChar).dropWhile isJsWs with
    | '(' :: r5 => (rawParamsTake r5).map fun raw => (name, raw)
    | _ => none

/-- `functionMatch[2].split(',').map(p => p.trim()).filter(p => p)`. -/
def splitParams (raw : List Char) : List String :=
  (((splitOnPred (· == ',') raw).map jsTrim).filter (fun p => !p.isEmpty)).map (⟨·⟩)

/-- The line loop of `parseJavaScriptFunctions`, carrying the full line
array for `extractJSDoc` and the current index. -/
def parseFnsAux (lines : List (List Char)) : List (List Char) → Nat → List FunctionInfo
  | [], _ => []
  | l :: t, i =>
    match matchFunDecl l with
    | none => parseFnsAux lines t (i + 1)
    | some nr =>
      let jd := extractJSDoc lines i
      ⟨⟨nr.1⟩, splitParams nr.2, jd.paramDocs, jd.returnType, jd.documentation⟩ ::
        parseFnsAux lines t (i + 1)

/-- `parseJavaScriptFunctions` (`src/parser.js` lines 94-124). -/
def parseJavaScriptFunctions (jsContent : String) : List FunctionInfo :=
  let lines := splitLines jsContent.data
  parseFnsAux lines lines 0

/-! ## Alias suggestion (`generateAliasFromFilename`, `src/parser.js`
lines 178-187) -/

/-- `part.charAt(0).toUpperCase() + part.slice(1)` (ASCII model of
`toUpperCase`). -/
def capSeg : List Char → List Char
  | [] => []
  | c :: t => c.toUpper :: t

/-- `generateAliasFromFilename`: strip one trailing `.js`
(`replace(/\.js$/, '')`), split on `-`/`_`, capitalise each segment's
first character, concatenate, and append `JS`. -/
def generateAliasFromFilename (filename : String) : String :=
  let cs := filename.data
  let baseName := if litPre ['s', 'j', '.'] cs.reverse then cs.take (cs.length - 3) else cs
  ⟨((splitOnPred (fun c => c == '-' || c == '_') baseName).map capSeg).flatten ++ ['J', 'S']⟩

/-! ## Import insertion (`src/providers/completion.js` lines 138-151)

The completion provider builds the statement
`(needsBlankLine ? '\n' : '') + 'import "<path>" as <alias>\n' +
(needsTrailingBlankLine ? '\n' : '')` and inserts it with a
`TextEdit.insert` at `Position(insertPoint.line, 0)`.  The editor's
`validatePosition` clamps a line number past the last line to the end of
the document, which `posOffset` reproduces. -/

/-- Character offset of `Position(line, 0)` in the text, clamped to the
end of the document when `line` exceeds the line count. -/
def posOffset : Nat → List Char → Nat
  | 0, _ => 0
  | _ + 1, [] => 0
  | l + 1, c :: t =>
    if c = '\n' then 1 + posOffset l t else 1 + posOffset (l + 1) t

/-- Splice `ins` into `cs` at `Position(line, 0)`. -/
def insertAtLine (cs : List Char) (line : Nat) (ins : List Char) : List Char :=
  cs.take (posOffset line cs) ++ ins ++ cs.drop (posOffset line cs)

/-- The auto-import edit of the completion provider: plan the insertion
point for `text`, build the import statement with the requested blank
lines, and splice it in. -/
def spliceImport (text relativePath al : String) : String :=
  let pt := getJsImportInsertionPoint text
  let stmt : String :=
    (if pt.needsBlankLine then "\n" else "") ++
      "import \"" ++ relativePath ++ "\" as " ++ al ++ "\n" ++
      (if pt.needsTrailingBlankLine then "\n" else "")
  ⟨insertAtLine text.data pt.line.toNat stmt.data⟩

/-- Number of occurrences of alias `al` among extracted imports. -/
def countAlias (imports : List Import) (al : String) : Nat :=
  (imports.filter (fun imp => imp.alias == al)).length

/-- The documented example script of C8 as a line array: a function
preceded by a block with one typed `@param` with description and one
typed `@returns`. -/
def c8Lines : List (List Char) :=
  ["/**", " * Adds", " * @param {string} x - the x", " * @returns {number} result", " */",
    "function f(x)"].map String.data

/-! ## Helper lemmas -/

theorem stripPref_eq_some {l cs r : List Char} :
    stripPref l cs = some r ↔ cs = l ++ r := by
  induction l generalizing cs with
  | nil => simp [stripPref]
  | cons a l ih =>
    cases cs with
    | nil => simp [stripPref]
    | cons c cs =>
      by_cases h : a = c
      · subst h
        simp [stripPref, ih]
      · simp [stripPref, h, Ne.symm h]

theorem litPre_append_self (l r : List Char) : litPre l (l ++ r) = true := by
  induction l with
  | nil => simp [litPre]
  | cons a l ih => simp [litPre, ih]

theorem litPre_mono {pat xs : List Char} (u : List Char) (h : litPre pat xs = true) :
    litPre pat (xs ++ u) = true := by
  induction pat generalizing xs with
  | nil => simp [litPre]
  | cons a l ih =>
    cases xs with
    | nil => simp [litPre] at h
    | cons c cs =>
      simp only [litPre, Bool.and_eq_true] at h ⊢
      exact ⟨h.1, ih h.2⟩

theorem hasSub_cons (pat : List Char) (c : Char) (t : List Char) :
    hasSub pat (c :: t) = (litPre pat (c :: t) || hasSub pat t) :=
  rfl

theorem hasSub_nil_pat (cs : List Char) : hasSub [] cs = true := by
  cases cs <;> simp [hasSub, litPre]

theorem hasSub_of_litPre {pat cs : List Char} (h : litPre pat cs = true) :
    hasSub pat cs = true := by
  cases cs with
  | nil =>
    cases pat with
    | nil => simp [hasSub, litPre]
    | cons a l => simp [litPre] at h
  | cons c t => simp [hasSub, h]

theorem hasSub_append_right {pat xs : List Char} (u : List Char)
    (h : hasSub pat xs = true) : hasSub pat (xs ++ u) = true := by
  induction xs with
  | nil =>
    have : pat = [] := by
      cases pat with
      | nil => rfl
      | cons a l => simp [hasSub, litPre] at h
    subst this
    exact hasSub_nil_pat u
  | cons c t ih =>
    simp only [hasSub, Bool.or_eq_true] at h
    rcases h with h | h
    · exact hasSub_of_litPre (litPre_mono u h)
    · simp only [List.cons_append, hasSub, Bool.or_eq_true]
      exact Or.inr (ih h)

theorem hasSub_append_left {pat b : List Char} (a : List Char)
    (h : hasSub pat b = true) : hasSub pat (a ++ b) = true := by
  induction a with
  | nil => simpa using h
  | cons c t ih =>
    simp only [List.cons_append, hasSub, Bool.or_eq_true]
    exact Or.inr ih

theorem hasSub_dropWhile {pat xs : List Char} {p : Char → Bool}
    (h : hasSub pat (xs.dropWhile p) = true) : hasSub pat xs = true := by
  have := hasSub_append_left (xs.takeWhile p) h
  rwa [List.takeWhile_append_dropWhile] at this

theorem hasSub_drop {pat xs : List Char} {k : Nat}
    (h : hasSub pat (xs.drop k) = true) : hasSub pat xs = true := by
  have := hasSub_append_left (xs.take k) h
  rwa [List.take_append_drop] at this

theorem matchJsImportAt_litPre {cs : List Char} {x : List Char × List Char × List Char}
    (h : matchJsImportAt cs = some x) : litPre importL cs = true := by
  unfold matchJsImportAt at h
  cases hs : stripPref importL cs with
  | none => rw [hs] at h; exact absurd h (by simp)
  | some r1 =>
    rw [stripPref_eq_some.mp hs]
    exact litPre_append_self _ _

theorem scanJsImport_none {cs : List Char}
    (h : hasSub importL cs = false) : scanJsImport cs = none := by
  induction cs with
  | nil => rfl
  | cons c t ih =>
    rw [hasSub_cons, Bool.or_eq_false_iff] at h
    have hm : matchJsImportAt (c :: t) = none := by
      cases hmm : matchJsImportAt (c :: t) with
      | none => rfl
      | some x => rw [matchJsImportAt_litPre hmm] at h; exact absurd h.1 (by simp)
    simp only [scanJsImport, hm]
    exact ih h.2

theorem findImportsAux_nil_of_no_sub {cs : List Char}
    (h : hasSub importL cs = false) (fuel : Nat) : findImportsAux fuel cs = [] := by
  induction fuel generalizing cs with
  | zero => rfl
  | succ n ih =>
    cases cs with
    | nil => rfl
    | cons c t =>
      have hsplit : litPre importL (c :: t) = false ∧ hasSub importL t = false := by
        rw [hasSub_cons, Bool.or_eq_false_iff] at h
        exact h
      have hm : matchJsImportAt (c :: t) = none := by
        cases hmm : matchJsImportAt (c :: t) with
        | none => rfl
        | some x => rw [matchJsImportAt_litPre hmm] at hsplit; exact absurd hsplit.1 (by simp)
      simp only [findImportsAux, hm]
      exact ih hsplit.2

theorem findImportsAux_nil_of_no_match {cs : List Char}
    (h : ∀ p, p < cs.length → matchJsImportAt (cs.drop p) = none) (fuel : Nat) :
    findImportsAux fuel cs = [] := by
  induction fuel generalizing cs with
  | zero => rfl
  | succ n ih =>
    cases cs with
    | nil => rfl
    | cons c t =>
      have h0 : matchJsImportAt (c :: t) = none := h 0 (by simp)
      simp only [findImportsAux, h0]
      exact ih fun p hp => h (p + 1) (by simpa using hp)

theorem splitOnPred_ne_nil (p : Char → Bool) (cs : List Char) : splitOnPred p cs ≠ [] := by
  cases cs with
  | nil => simp [splitOnPred]
  | cons c t =>
    simp only [splitOnPred]
    split
    · simp
    · split <;> simp

theorem splitLines_head_decomp {cs h : List Char} {r : List (List Char)}
    (hs : splitLines cs = h :: r) : ∃ u, cs = h ++ u := by
  induction cs generalizing h r with
  | nil =>
    simp only [splitLines, splitOnPred] at hs
    cases hs
    exact ⟨[], rfl⟩
  | cons c t ih =>
    simp only [splitLines, splitOnPred] at hs
    by_cases hc : (c == '\n') = true
    · rw [if_pos hc] at hs
      cases hs
      exact ⟨c :: t, rfl⟩
    · rw [if_neg hc] at hs
      cases hst : splitOnPred (· == '\n') t with
      | nil => exact absurd hst (splitOnPred_ne_nil _ _)
      | cons h' r' =>
        rw [hst] at hs
        cases hs
        obtain ⟨u, hu⟩ := ih hst
        exact ⟨u, by simp [hu]⟩

theorem mem_splitLines_hasSub {pat cs l : List Char}
    (hl : l ∈ splitLines cs) (h : hasSub pat l = true) : hasSub pat cs = true := by
  induction cs generalizing l with
  | nil =>
    simp only [splitLines, splitOnPred, List.mem_singleton] at hl
    subst hl
    exact h
  | cons c t ih =>
    simp only [splitLines, splitOnPred] at hl
    by_cases hc : (c == '\n') = true
    · rw [if_pos hc] at hl
      rcases List.mem_cons.mp hl with rfl | hl
      · have : pat = [] := by
          cases pat with
          | nil => rfl
          | cons a l' => simp [hasSub, litPre] at h
        subst this
        exact hasSub_nil_pat _
      · simp only [hasSub, Bool.or_eq_true]
        exact Or.inr (ih hl h)
    · rw [if_neg hc] at hl
      cases hst : splitOnPred (· == '\n') t with
      | nil => exact absurd hst (splitOnPred_ne_nil _ _)
      | cons h' r' =>
        rw [hst] at hl
        rcases List.mem_cons.mp hl with rfl | hl
        · obtain ⟨u, hu⟩ := splitLines_head_decomp (by simpa [splitLines] using hst)
          simp only [hasSub, Bool.or_eq_true] at h ⊢
          rcases h with h | h
          · exact Or.inl (by simpa [hu] using litPre_mono u h)
          · exact Or.inr (by rw [hu]; exact hasSub_append_right u h)
        · simp only [hasSub, Bool.or_eq_true]
          exact Or.inr (ih (by simpa [splitLines, hst] using List.mem_cons_of_mem h' hl) h)

theorem jsImportTestG_of_no_sub {l : List Char} (h : hasSub importL l = false)
    (li : Nat) : jsImportTestG l li = (false, 0) := by
  unfold jsImportTestG
  split
  · rfl
  · have hd : hasSub importL (l.drop li) = false := by
      cases hdd : hasSub importL (l.drop li) with
      | false => rfl
      | true => rw [hasSub_drop hdd] at h; exact absurd h (by simp)
    rw [scanJsImport_none hd]

theorem qmlImportTest_false_of_no_sub {l : List Char}
    (h : hasSub importL l = false) : qmlImportTest l = false := by
  unfold qmlImportTest
  cases hs : stripPref importL (l.dropWhile isJsWs) with
  | none => rfl
  | some r1 =>
    have : hasSub importL (l.dropWhile isJsWs) = true := by
      rw [stripPref_eq_some.mp hs]
      exact hasSub_of_litPre (litPre_append_self _ _)
    rw [hasSub_dropWhile this] at h
    exact absurd h (by simp)

theorem lastLineAux_const {p : List Char → Bool} {ls : List (List Char)}
    (h : ∀ l ∈ ls, p l = false) (acc : Int) (i : Nat) :
    lastLineAux p ls acc i = acc := by
  induction ls generalizing acc i with
  | nil => rfl
  | cons l t ih =>
    simp only [lastLineAux, h l (by simp)]
    exact ih (fun l' hl' => h l' (List.mem_cons_of_mem _ hl')) acc (i + 1)

theorem lastJsAux_const {ls : List (List Char)}
    (h : ∀ l ∈ ls, hasSub importL l = false) (acc : Int) (li i : Nat) :
    lastJsAux ls acc li i = acc := by
  induction ls generalizing acc li i with
  | nil => rfl
  | cons l t ih =>
    simp only [lastJsAux, jsImportTestG_of_no_sub (h l (by simp)) li]
    exact ih (fun l' hl' => h l' (List.mem_cons_of_mem _ hl')) acc 0 (i + 1)

theorem lastLineAux_lb {p : List Char → Bool} {ls : List (List Char)} {acc : Int} {i : Nat}
    (h : -1 ≤ acc) : -1 ≤ lastLineAux p ls acc i := by
  induction ls generalizing acc i with
  | nil => exact h
  | cons l t ih =>
    simp only [lastLineAux]
    exact ih (by split <;> omega)

theorem lastLineAux_ub {p : List Char → Bool} {ls : List (List Char)} {acc : Int} {i : Nat}
    (h : acc < (i : Int)) : lastLineAux p ls acc i < (i : Int) + ls.length := by
  induction ls generalizing acc i with
  | nil => simpa using h
  | cons l t ih =>
    simp only [lastLineAux, List.length_cons]
    have := @ih (if p l then (i : Int) else acc) (i + 1) (by split <;> push_cast <;> omega)
    push_cast at this ⊢
    omega

theorem lastJsAux_lb {ls : List (List Char)} {acc : Int} {li i : Nat}
    (h : -1 ≤ acc) : -1 ≤ lastJsAux ls acc li i := by
  induction ls generalizing acc li i with
  | nil => exact h
  | cons l t ih =>
    simp only [lastJsAux]
    exact ih (by split <;> omega)

theorem lastJsAux_ub {ls : List (List Char)} {acc : Int} {li i : Nat}
    (h : acc < (i : Int)) : lastJsAux ls acc li i < (i : Int) + ls.length := by
  induction ls generalizing acc li i with
  | nil => simpa using h
  | cons l t ih =>
    simp only [lastJsAux, List.length_cons]
    have := @ih (if (jsImportTestG l li).1 then (i : Int) else acc)
      (jsImportTestG l li).2 (i + 1) (by split <;> push_cast <;> omega)
    push_cast at this ⊢
    omega

theorem splitLines_length_pos (cs : List Char) : 0 < (splitLines cs).length := by
  cases h : splitLines cs with
  | nil => exact absurd h (splitOnPred_ne_nil _ _)
  | cons l t => simp

theorem splitLines_single {cs : List Char} (h : ∀ c ∈ cs, (c == '\n') = false) :
    splitLines cs = [cs] := by
  induction cs with
  | nil => rfl
  | cons c t ih =>
    simp only [splitLines, splitOnPred, h c (by simp), if_false]
    rw [show splitOnPred (· == '\n') t = splitLines t from rfl,
      ih fun c hc => h c (List.mem_cons_of_mem _ hc)]
    simp

theorem takeWhile_eq_self_of_all {p : Char → Bool} {xs : List Char}
    (h : ∀ c ∈ xs, p c = true) : xs.takeWhile p = xs := by
  induction xs with
  | nil => rfl
  | cons c t ih =>
    simp [List.takeWhile_cons, h c (by simp), ih fun c' hc' => h c' (List.mem_cons_of_mem _ hc')]

theorem dropWhile_eq_nil_of_all {p : Char → Bool} {xs : List Char}
    (h : ∀ c ∈ xs, p c = true) : xs.dropWhile p = [] := by
  induction xs with
  | nil => rfl
  | cons c t ih =>
    rw [List.dropWhile_cons, h c (by simp), if_pos rfl]
    exact ih fun c' hc' => h c' (List.mem_cons_of_mem _ hc')

theorem takeWhile_append_stop {p : Char → Bool} {xs : List Char} {y : Char}
    (h : ∀ c ∈ xs, p c = true) (hy : p y = false) (ys : List Char) :
    (xs ++ y :: ys).takeWhile p = xs := by
  induction xs with
  | nil => simp [List.takeWhile_cons, hy]
  | cons c t ih =>
    simp [List.cons_append, List.takeWhile_cons, h c (by simp),
      ih fun c' hc' => h c' (List.mem_cons_of_mem _ hc')]

theorem dropWhile_append_stop {p : Char → Bool} {xs : List Char} {y : Char}
    (h : ∀ c ∈ xs, p c = true) (hy : p y = false) (ys : List Char) :
    (xs ++ y :: ys).dropWhile p = y :: ys := by
  induction xs with
  | nil => simp [List.dropWhile_cons, hy]
  | cons c t ih =>
    rw [List.cons_append, List.dropWhile_cons, h c (by simp), if_pos rfl]
    exact ih fun c' hc' => h c' (List.mem_cons_of_mem _ hc')

theorem find?_first {α : Type} (p : α → Bool) (l1 l2 : List α) (y : α)
    (h1 : ∀ x ∈ l1, p x = false) (hy : p y = true) :
    (l1 ++ y :: l2).find? p = some y := by
  induction l1 with
  | nil => simpa using List.find?_cons_of_pos _ hy
  | cons x t ih =>
    rw [List.cons_append, List.find?_cons_of_neg _ (by simp [h1 x (by simp)])]
    exact ih fun x' hx' => h1 x' (List.mem_cons_of_mem _ hx')

/-! ## Claim theorems -/

/-- C10: for every input text, the insertion point computed by
`getJsImportInsertionPoint` satisfies `0 ≤ line ≤ number of lines of the
input`, so the splice position lies within or immediately after the
document and is never negative. -/
theorem c10_insertion_point_bounds (text : String) :
    0 ≤ (getJsImportInsertionPoint text).line ∧
    (getJsImportInsertionPoint text).line ≤ ((splitLines text.data).length : Int) := by
  have hn : 0 < (splitLines text.data).length := splitLines_length_pos _
  have hjs_ub : lastJsAux (splitLines text.data) (-1) 0 0 < (0 : Int) + (splitLines text.data).length :=
    lastJsAux_ub (by norm_num)
  have hq_ub : lastLineAux qmlImportTest (splitLines text.data) (-1) 0 < (0 : Int) + (splitLines text.data).length :=
    lastLineAux_ub (by norm_num)
  unfold getJsImportInsertionPoint getLastJsImportLine getLastQmlImportLine
  dsimp only
  split
  · next hjs =>
    constructor
    · simp only [ImportInsertionPoint.line]
      omega
    · simp only [ImportInsertionPoint.line]
      omega
  · next hjs =>
    split
    · next hq =>
      constructor
      · simp only [ImportInsertionPoint.line]
        split <;> omega
      · simp only [ImportInsertionPoint.line]
        split
        · next hb =>
          rw [Bool.and_eq_true, decide_eq_true_eq] at hb
          omega
        · omega
    · simp only [ImportInsertionPoint.line]
      omega

/-- C2 (code bug witness): on the two-line document whose lines are both
script-import statements, `getLastJsImportLine` returns `0`, although the
later line 1 also contains a script-import statement (the `g`-flagged
`QML_JS_IMPORT` regex carries its `lastIndex` from the first `test` into
the second, which therefore fails). -/
theorem c2_getLastJsImportLine_stateful_bug :
    getLastJsImportLine "import \"a.js\" as A\nimport \"b.js\" as B" = 0 ∧
    (scanJsImport ("import \"b.js\" as B").data).isSome = true := by
  constructor
  · decide
  · decide

/-- C6: `findJavaScriptImports` is total and order-preserving: a markup
text with no position matching the script-import pattern yields `[]`,
and the two-line text `import "a.js" as A\nimport "b.js" as B` yields
exactly its two imports in document order. -/
theorem c6_findJavaScriptImports_extraction :
    (∀ text : String,
      (∀ p, p < text.data.length → matchJsImportAt (text.data.drop p) = none) →
      findJavaScriptImports text = []) ∧
    findJavaScriptImports "import \"a.js\" as A\nimport \"b.js\" as B" =
      [⟨"a.js", "A"⟩, ⟨"b.js", "B"⟩] := by
  constructor
  · intro text h
    unfold findJavaScriptImports
    rw [findImportsAux_nil_of_no_match h]
    rfl
  · decide

/-- C6 witness: the no-match case evaluated on a concrete import-free
text. -/
theorem c6_witness : findJavaScriptImports "Rectangle" = [] :=
  c6_findJavaScriptImports_extraction.1 "Rectangle" (by decide)

/-- C9: `generateAliasFromFilename` strips a trailing `.js`, splits on
`-`/`_`, capitalises each segment, concatenates and appends `JS`;
`account-helper.js` yields `AccountHelperJS`, `util.js` yields `UtilJS`,
and every result carries the fixed `JS` suffix. -/
theorem c9_generateAliasFromFilename :
    generateAliasFromFilename "account-helper.js" = "AccountHelperJS" ∧
    generateAliasFromFilename "util.js" = "UtilJS" ∧
    ∀ f : String, ∃ stem, (generateAliasFromFilename f).data = stem ++ ['J', 'S'] := by
  refine ⟨by decide, by decide, fun f => ⟨_, rfl⟩⟩

/-- C7: `parseJavaScriptFunctions` yields one record per line anchored at
column 0 by `function <name>(...)`, in declaration order, with the raw
parameter list split on commas, trimmed, and empty entries dropped; any
line whose `function` keyword is preceded by a character (e.g. leading
whitespace) produces no record, and every matching line starts with the
literal `function`. -/
theorem c7_parseJavaScriptFunctions_shape :
    parseJavaScriptFunctions
        "function add(a, b)\nlet x = 1\n  function indented(y)\nfunction weird( a , , b )\n" =
      [⟨"add", ["a", "b"], [], "any", ""⟩, ⟨"weird", ["a", "b"], [], "any", ""⟩] ∧
    (∀ line : List Char, (matchFunDecl line).isSome = true →
      litPre ['f', 'u', 'n', 'c', 't', 'i', 'o', 'n'] line = true) ∧
    (∀ (line : List Char) (c : Char), isJsWs c = true → matchFunDecl (c :: line) = none) := by
  refine ⟨by decide, ?_, ?_⟩
  · intro line h
    unfold matchFunDecl at h
    cases hs : stripPref ['f', 'u', 'n', 'c', 't', 'i', 'o', 'n'] line with
    | none => rw [hs] at h; exact absurd h (by simp)
    | some r1 =>
      rw [stripPref_eq_some.mp hs]
      exact litPre_append_self _ _
  · intro line c hc
    have hcc := hc
    simp only [isJsWs, Bool.or_eq_true, beq_iff_eq] at hcc
    rcases hcc with ((((rfl | rfl) | rfl) | rfl) | rfl) | rfl <;> rfl

/-- C7 witness: the anchoring facts instantiated on concrete lines. -/
theorem c7_witness :
    litPre ['f', 'u', 'n', 'c', 't', 'i', 'o', 'n'] ("function f(x)").data = true ∧
    matchFunDecl (' ' :: ("function f(x)").data) = none :=
  ⟨c7_parseJavaScriptFunctions_shape.2.1 _ (by decide),
   c7_parseJavaScriptFunctions_shape.2.2 _ ' ' (by decide)⟩

/-- C3: `findJsFileForAlias` returns `none` when no import carries the
queried alias, and otherwise resolves the FIRST import with that alias
(document order) against the directory of the document's path; on a
document with two imports aliased `M` it resolves the first one's file. -/
theorem c3_findJsFileForAlias_first_match :
    (∀ text docPath al : String,
      (∀ imp ∈ findJavaScriptImports text, imp.alias ≠ al) →
      findJsFileForAlias text docPath al = none) ∧
    (∀ (text docPath al : String) (l1 l2 : List Import) (imp : Import),
      findJavaScriptImports text = l1 ++ imp :: l2 → imp.alias = al →
      (∀ x ∈ l1, x.alias ≠ al) →
      findJsFileForAlias text docPath al = some (resolveJsFilePath docPath imp.file)) ∧
    findJsFileForAlias "import \"a.js\" as M\nimport \"b.js\" as M" "/proj/Main.qml" "M" =
      some "/proj/a.js" := by
  refine ⟨?_, ?_, by decide⟩
  · intro text docPath al h
    unfold findJsFileForAlias
    rw [List.find?_eq_none.mpr fun x hx => by simpa using h x hx]
  · intro text docPath al l1 l2 imp hfind himp h1
    unfold findJsFileForAlias
    rw [hfind, find?_first _ l1 l2 imp (fun x hx => by simpa using h1 x hx) (by simp [himp])]

/-- C3 witness: the `none` case applied at a concrete alias-free
document. -/
theorem c3_witness : findJsFileForAlias "Rectangle" "/proj/Main.qml" "Z" = none :=
  c3_findJsFileForAlias_first_match.1 "Rectangle" "/proj/Main.qml" "Z" (by decide)

/-- C5 counterexample: on the markup text
`import "a.js" as A import "x.js" as ` (which contains a dangling
script-import fragment), the alias `NewB` is not among the extracted
aliases, yet splicing the planned import `import "b.js" as NewB` at the
planned point and re-extracting yields `NewB` zero times, not exactly
once: the dangling fragment captures the inserted `import` keyword as
its own alias. -/
theorem c5_roundtrip_counterexample :
    (∀ imp ∈ findJavaScriptImports "import \"a.js\" as A import \"x.js\" as ",
      imp.alias ≠ "NewB") ∧
    countAlias
        (findJavaScriptImports
          (spliceImport "import \"a.js\" as A import \"x.js\" as " "b.js" "NewB"))
        "NewB" = 0 := by
  constructor
  · decide
  · decide

/-- C4: the Import-Insertion Planner returns
`{line: 0, needsBlankLine: false, needsTrailingBlankLine: false}` on the
empty document, and `{line: 1, needsBlankLine: true,
needsTrailingBlankLine: true}` on a document whose only content is one
ordinary (non-script) import line. -/
theorem c4_insertion_point_base_cases :
    getJsImportInsertionPoint "" = ⟨0, false, false⟩ ∧
    ∀ s : String, (∀ c ∈ s.data, (c == '\n') = false) →
      scanJsImport s.data = none → qmlImportTest s.data = true →
      getJsImportInsertionPoint s = ⟨1, true, true⟩ := by
  constructor
  · decide
  · intro s hnl hscan hqml
    have hsplit : splitLines s.data = [s.data] := splitLines_single hnl
    have hjs : getLastJsImportLine s = -1 := by
      unfold getLastJsImportLine
      rw [hsplit]
      simp [lastJsAux, jsImportTestG, hscan]
    have hq : getLastQmlImportLine s = 0 := by
      unfold getLastQmlImportLine
      rw [hsplit]
      simp [lastLineAux, hqml]
    unfold getJsImportInsertionPoint
    rw [hjs, hq, hsplit]
    norm_num

/-- C4 witness: the one-ordinary-import case evaluated on
`import QtQuick 2.15`. -/
theorem c4_witness : getJsImportInsertionPoint "import QtQuick 2.15" = ⟨1, true, true⟩ :=
  c4_insertion_point_base_cases.2 "import QtQuick 2.15" (by decide) (by decide) (by decide)

theorem mem_takeWhile_pred {p : Char → Bool} {l : List Char} {x : Char}
    (h : x ∈ l.takeWhile p) : p x = true := by
  induction l with
  | nil => simp [List.takeWhile] at h
  | cons c t ih =>
    rw [List.takeWhile_cons] at h
    by_cases hc : p c = true
    · rw [hc] at h
      simp only [if_pos rfl] at h
      rcases List.mem_cons.mp h with rfl | h
      · exact hc
      · exact ih h
    · rw [Bool.not_eq_true] at hc
      rw [hc] at h
      simp at h

theorem isBlankL_all_ws {l : List Char} (h : isBlankL l = true) :
    ∀ c ∈ l, isJsWs c = true := by
  unfold isBlankL jsTrim at h
  rw [List.isEmpty_iff, List.reverse_eq_nil_iff, List.dropWhile_eq_nil_iff] at h
  intro c hc
  rcases List.mem_append.mp (by rw [List.takeWhile_append_dropWhile (p := isJsWs)]; exact hc :
      c ∈ l.takeWhile isJsWs ++ l.dropWhile isJsWs) with hm | hm
  · exact mem_takeWhile_pred hm
  · exact h c (List.mem_reverse.mpr hm)

theorem hasSub_mem_head {a : Char} {pat cs : List Char}
    (h : hasSub (a :: pat) cs = true) : a ∈ cs := by
  induction cs with
  | nil => simp [hasSub, litPre] at h
  | cons c t ih =>
    rw [hasSub_cons, Bool.or_eq_true] at h
    rcases h with h | h
    · simp only [litPre, Bool.and_eq_true, beq_iff_eq] at h
      exact h.1 ▸ List.mem_cons_self _ _
    · exact List.mem_cons_of_mem _ (ih h)

theorem blank_no_jsdocEnd {l : List Char} (h : isBlankL l = true) :
    containsJsdocEnd l = false := by
  cases he : containsJsdocEnd l with
  | false => rfl
  | true =>
    have := isBlankL_all_ws h '*' (hasSub_mem_head he)
    simp [isJsWs] at this

theorem findJsdocEnd_none (lines : List (List Char)) (i : Nat)
    (H : ∀ j, j < i →
      (∀ k, k < i → j ≤ k → isBlankL (lines.getD k []) = false) →
      containsJsdocEnd (lines.getD j []) = false) :
    findJsdocEnd lines i = none := by
  induction i with
  | zero => rfl
  | succ n ih =>
    show (if containsJsdocEnd (lines.getD n []) = true then some n
          else if isBlankL (lines.getD n []) = true then none
          else findJsdocEnd lines n) = none
    by_cases hb : isBlankL (lines.getD n []) = true
    · rw [if_neg (by rw [blank_no_jsdocEnd hb]; simp), if_pos hb]
    · have hend : containsJsdocEnd (lines.getD n []) = false :=
        H n (Nat.lt_succ_self n) fun k hk1 hk2 => by
          have : k = n := by omega
          subst this
          simpa using hb
      rw [if_neg (by rw [hend]; simp), if_neg hb]
      exact ih fun j hj hchain =>
        H j (Nat.lt_succ_of_lt hj) fun k hk1 hk2 => by
          by_cases hkn : k < n
          · exact hchain k hkn hk2
          · have : k = n := by omega
            subst this
            simpa using hb

/-- C1: for every script-file line array and every in-bounds function
declaration line index, if no line of the non-blank block immediately
above the declaration contains a documentation terminator (in
particular, when a blank line directly separates the declaration from
any preceding documentation block), `extractJSDoc` returns the
all-default result `documentation=""`, `returnType="any"`,
`paramDocs=[]`. -/
theorem c1_extractJSDoc_no_adjacent_doc (lines : List (List Char)) (i : Nat)
    (hi : i < lines.length)
    (hfn : (matchFunDecl (lines.getD i [])).isSome = true)
    (H : ∀ j, j < i →
      (∀ k, k < i → j ≤ k → isBlankL (lines.getD k []) = false) →
      containsJsdocEnd (lines.getD j []) = false) :
    extractJSDoc lines i = ⟨"", "any", []⟩ := by
  unfold extractJSDoc
  rw [findJsdocEnd_none lines i H]

/-- C1 witness: a function on line 1 with a blank line 0 above it gets
the all-default documentation result. -/
theorem c1_witness :
    extractJSDoc [([] : List Char), ("function f()").data] 1 = ⟨"", "any", []⟩ :=
  c1_extractJSDoc_no_adjacent_doc [([] : List Char), ("function f()").data] 1
    (by decide) (by decide) (by decide)

theorem word_not_ws {c : Char} (h : isWordChar c = true) : isJsWs c = false := by
  cases hw : isJsWs c with
  | false => rfl
  | true =>
    have hcc := hw
    simp only [isJsWs, Bool.or_eq_true, beq_iff_eq] at hcc
    rcases hcc with ((((rfl | rfl) | rfl) | rfl) | rfl) | rfl <;> exact absurd h (by decide)

theorem typeAnnCore_not_brace {c : Char} (t : List Char) (h : (c == '{') = false) :
    typeAnnCore (c :: t) = none := by
  unfold typeAnnCore
  split
  · next heq =>
    rw [List.cons.injEq] at heq
    rw [heq.1] at h
    simp at h
  · rfl

theorem matchParamTail_word (name : List Char) (h1 : name ≠ [])
    (h2 : ∀ c ∈ name, isWordChar c = true) :
    matchParamTail name = some (name, none, []) := by
  have hnw : ∀ c ∈ name, (fun x => !isJsWs x) c = true := fun c hc => by
    show (!isJsWs c) = true
    rw [word_not_ws (h2 c hc)]
    rfl
  unfold matchParamTail
  rw [takeWhile_eq_self_of_all hnw, dropWhile_eq_nil_of_all hnw]
  obtain ⟨c, t, rfl⟩ := List.exists_cons_of_ne_nil h1
  simp

theorem matchParamAt_plain (name : List Char) (h1 : name ≠ [])
    (h2 : ∀ c ∈ name, isWordChar c = true) :
    matchParamAt ('@' :: 'p' :: 'a' :: 'r' :: 'a' :: 'm' :: ' ' :: name) =
      some (none, name, none, []) := by
  obtain ⟨c, t, rfl⟩ := List.exists_cons_of_ne_nil h1
  have hcns : isJsWs c = false := word_not_ws (h2 c (by simp))
  have hbr : (c == '{') = false := by
    cases hcb : c == '{' with
    | false => rfl
    | true =>
      have hc : c = '{' := by simpa using hcb
      subst hc
      exact absurd (h2 '{' (by simp)) (by decide)
  have hsp : isJsWs ' ' = true := by decide
  unfold matchParamAt
  rw [show stripPref ['@', 'p', 'a', 'r', 'a', 'm']
        ('@' :: 'p' :: 'a' :: 'r' :: 'a' :: 'm' :: ' ' :: c :: t) = some (' ' :: c :: t) from rfl]
  dsimp only
  rw [show (' ' :: c :: t).takeWhile isJsWs = [' '] from by
    simp [List.takeWhile_cons, hcns, hsp]]
  rw [show (' ' :: c :: t).dropWhile isJsWs = c :: t from by
    simp [List.dropWhile_cons, hcns, hsp]]
  unfold tryTypeAnn
  rw [typeAnnCore_not_brace t hbr]
  rw [matchParamTail_word (c :: t) (by simp) h2]
  rfl

/-- C8: on a function preceded by `/** ... */` holding
`@param {string} x - the x` and `@returns {number} result`, the
Documentation Extractor yields
`paramDocs = [{type:"string", name:"x", description:"the x"}]` and
`returnType = "number"`; in general a `@param` tag with no `{type}`
annotation and no ` - ` suffix yields a ParamDoc with type `"any"` and
description `""`. -/
theorem c8_jsdoc_param_return :
    (extractJSDoc c8Lines 5).paramDocs = [⟨"string", "x", "the x"⟩] ∧
    (extractJSDoc c8Lines 5).returnType = "number" ∧
    ∀ name : List Char, name ≠ [] → (∀ c ∈ name, isWordChar c = true) →
      matchParamAt ('@' :: 'p' :: 'a' :: 'r' :: 'a' :: 'm' :: ' ' :: name) =
        some (none, name, none, []) ∧
      mkParamDoc (none, name, none) = ⟨"any", ⟨name⟩, ""⟩ :=
  ⟨by decide, by decide,
   fun name h1 h2 => ⟨matchParamAt_plain name h1 h2, rfl⟩⟩

/-- C8 witness: the untyped, undescribed `@param x` tag produces the
defaulted ParamDoc. -/
theorem c8_witness :
    matchParamAt ('@' :: 'p' :: 'a' :: 'r' :: 'a' :: 'm' :: ' ' :: ['x']) =
      some (none, ['x'], none, []) ∧
    mkParamDoc (none, ['x'], none) = ⟨"any", "x", ""⟩ :=
  c8_jsdoc_param_return.2.2 ['x'] (by decide) (by decide)

theorem matchJsImportAt_wellformed (rp al rest pre : List Char)
    (hrp : rp = pre ++ ['.', 'j', 's']) (hpre : pre ≠ [])
    (hq : ∀ c ∈ rp, (c == '"') = false)
    (hal : al ≠ []) (halw : ∀ c ∈ al, isWordChar c = true) :
    matchJsImportAt
      ('i' :: 'm' :: 'p' :: 'o' :: 'r' :: 't' :: ' ' :: '"' ::
        (rp ++ '"' :: ' ' :: 'a' :: 's' :: ' ' :: (al ++ '\n' :: rest))) =
      some (rp, al, '\n' :: rest) := by
  obtain ⟨a0, al', rfl⟩ := List.exists_cons_of_ne_nil hal
  have ha0 : isJsWs a0 = false := word_not_ws (halw a0 (by simp))
  have hsp : isJsWs ' ' = true := by decide
  have hqws : isJsWs '"' = false := by decide
  have haa : isJsWs 'a' = false := by decide
  have hnq : ∀ c ∈ rp, (fun c => !(c == '"')) c = true := fun c hc => by
    show (!(c == '"')) = true
    rw [hq c hc]
    rfl
  have hdot : dotJsOk rp = true := by
    subst hrp
    unfold dotJsOk
    rw [decide_eq_true (by
      rw [List.length_append]
      have := List.length_pos.mpr hpre
      simp
      omega : 3 < (pre ++ ['.', 'j', 's']).length)]
    simp [litPre]
  unfold matchJsImportAt
  rw [show stripPref importL
      ('i' :: 'm' :: 'p' :: 'o' :: 'r' :: 't' :: ' ' :: '"' ::
        (rp ++ '"' :: ' ' :: 'a' :: 's' :: ' ' :: ((a0 :: al') ++ '\n' :: rest))) =
      some (' ' :: '"' ::
        (rp ++ '"' :: ' ' :: 'a' :: 's' :: ' ' :: ((a0 :: al') ++ '\n' :: rest))) from rfl]
  dsimp only
  rw [show (' ' :: '"' ::
        (rp ++ '"' :: ' ' :: 'a' :: 's' :: ' ' :: ((a0 :: al') ++ '\n' :: rest))).takeWhile
          isJsWs = [' '] from by simp [List.takeWhile_cons, hsp, hqws]]
  rw [if_neg (by decide)]
  rw [show (' ' :: '"' ::
        (rp ++ '"' :: ' ' :: 'a' :: 's' :: ' ' :: ((a0 :: al') ++ '\n' :: rest))).dropWhile
          isJsWs = '"' :: (rp ++ '"' :: ' ' :: 'a' :: 's' :: ' ' :: ((a0 :: al') ++ '\n' :: rest))
      from by simp [List.dropWhile_cons, hsp, hqws]]
  dsimp only
  rw [if_pos (show ('"' == '"') = true from rfl)]
  rw [takeWhile_append_stop hnq (by decide) (' ' :: 'a' :: 's' :: ' ' :: ((a0 :: al') ++ '\n' :: rest))]
  rw [hdot, if_pos rfl]
  rw [dropWhile_append_stop hnq (by decide) (' ' :: 'a' :: 's' :: ' ' :: ((a0 :: al') ++ '\n' :: rest))]
  dsimp only
  rw [if_pos (show ('"' == '"') = true from rfl)]
  rw [show (' ' :: 'a' :: 's' :: ' ' :: ((a0 :: al') ++ '\n' :: rest)).takeWhile isJsWs =
        [' '] from by simp [List.takeWhile_cons, hsp, haa]]
  rw [if_neg (by decide)]
  rw [show (' ' :: 'a' :: 's' :: ' ' :: ((a0 :: al') ++ '\n' :: rest)).dropWhile isJsWs =
        'a' :: 's' :: ' ' :: ((a0 :: al') ++ '\n' :: rest) from by
    simp [List.dropWhile_cons, hsp, haa]]
  rw [show stripPref ['a', 's'] ('a' :: 's' :: ' ' :: ((a0 :: al') ++ '\n' :: rest)) =
        some (' ' :: ((a0 :: al') ++ '\n' :: rest)) from rfl]
  dsimp only
  rw [show (' ' :: ((a0 :: al') ++ '\n' :: rest)).takeWhile isJsWs = [' '] from by
    simp [List.takeWhile_cons, hsp, ha0]]
  rw [if_neg (by decide)]
  rw [show (' ' :: ((a0 :: al') ++ '\n' :: rest)).dropWhile isJsWs =
        (a0 :: al') ++ '\n' :: rest from by simp [List.dropWhile_cons, hsp, ha0]]
  rw [takeWhile_append_stop (fun c hc => halw c hc) (by decide) rest]
  rw [if_neg (by simp)]
  rw [dropWhile_append_stop (fun c hc => halw c hc) (by decide) rest]

theorem findImportsAux_cons_match {c : Char} {t : List Char} {fuel : Nat}
    {f a r : List Char} (hm : matchJsImportAt (c :: t) = some (f, a, r)) :
    findImportsAux (fuel + 1) (c :: t) = (f, a) :: findImportsAux fuel r := by
  simp only [findImportsAux, hm]

theorem planner_no_import {text : String} (hno : hasSub importL text.data = false) :
    ∃ hc : Bool, getJsImportInsertionPoint text = ⟨0, false, hc⟩ := by
  have hlines : ∀ l ∈ splitLines text.data, hasSub importL l = false := by
    intro l hl
    cases hsl : hasSub importL l with
    | false => rfl
    | true => rw [mem_splitLines_hasSub hl hsl] at hno; exact absurd hno (by simp)
  have hjs : getLastJsImportLine text = -1 := by
    unfold getLastJsImportLine
    exact lastJsAux_const hlines _ _ _
  have hq : getLastQmlImportLine text = -1 := by
    unfold getLastQmlImportLine
    exact lastLineAux_const (fun l hl => qmlImportTest_false_of_no_sub (hlines l hl)) _ _
  refine ⟨decide (0 < (splitLines text.data).length) &&
    !isBlankL ((splitLines text.data).getD 0 []), ?_⟩
  unfold getJsImportInsertionPoint
  rw [hjs, hq]
  norm_num

/-- C5 (amended): for every markup text that contains no occurrence of
the substring `import` (hence no existing imports, and no fragment that
could capture the inserted keyword), splicing a well-formed planned
statement (`.js` path with a non-empty stem and no quote, non-empty
word-character alias) at the planned insertion point and re-running the
Import Extractor yields the new alias exactly once. -/
theorem c5_roundtrip_amended (text rp al : String) (pre : List Char)
    (hno : hasSub importL text.data = false)
    (hrp : rp.data = pre ++ ['.', 'j', 's']) (hpre : pre ≠ [])
    (hq : ∀ c ∈ rp.data, (c == '"') = false)
    (hal : al.data ≠ []) (halw : ∀ c ∈ al.data, isWordChar c = true) :
    countAlias (findJavaScriptImports (spliceImport text rp al)) al = 1 := by
  obtain ⟨hc, hplan⟩ := planner_no_import hno
  have hdata : ∀ a b : String, (a ++ b).data = a.data ++ b.data := fun a b => rfl
  have hlit1 : ("import \"" : String).data = ['i', 'm', 'p', 'o', 'r', 't', ' ', '"'] := rfl
  have hlit2 : ("\" as " : String).data = ['"', ' ', 'a', 's', ' '] := rfl
  have hlit3 : ("\n" : String).data = ['\n'] := rfl
  have hlit4 : ("" : String).data = [] := rfl
  have hpos : posOffset 0 text.data = 0 := by cases text.data <;> rfl
  have hsplice : (spliceImport text rp al).data =
      'i' :: 'm' :: 'p' :: 'o' :: 'r' :: 't' :: ' ' :: '"' ::
        (rp.data ++ '"' :: ' ' :: 'a' :: 's' :: ' ' ::
          (al.data ++ '\n' :: ((if hc then ['\n'] else []) ++ text.data))) := by
    cases hc with
    | true => simp [spliceImport, hplan, insertAtLine, hpos, hdata, hlit1, hlit2, hlit3, hlit4]
    | false => simp [spliceImport, hplan, insertAtLine, hpos, hdata, hlit1, hlit2, hlit3, hlit4]
  have hrest : hasSub importL ('\n' :: ((if hc then ['\n'] else []) ++ text.data)) = false := by
    rw [hasSub_cons]
    rw [show litPre importL ('\n' :: ((if hc then ['\n'] else []) ++ text.data)) = false from rfl]
    cases hc with
    | true =>
      simp only [Bool.false_or]
      rw [show ((if True then ['\n'] else []) ++ text.data : List Char) = '\n' :: text.data
        from by simp]
      rw [hasSub_cons]
      rw [show litPre importL ('\n' :: text.data) = false from rfl]
      simp [hno]
    | false => simpa using hno
  have heta : (⟨al.data⟩ : String) = al := rfl
  unfold findJavaScriptImports
  rw [hsplice, List.length_cons]
  rw [findImportsAux_cons_match (matchJsImportAt_wellformed rp.data al.data _ pre hrp hpre hq hal halw)]
  rw [findImportsAux_nil_of_no_sub hrest _]
  simp [countAlias, heta]

/-- C5 witness: the amended round-trip evaluated on an import-free
document. -/
theorem c5_witness :
    countAlias (findJavaScriptImports (spliceImport "Rectangle" "b.js" "B")) "B" = 1 :=
  c5_roundtrip_amended "Rectangle" "b.js" "B" ['b'] (by decide) (by decide) (by decide)
    (by decide) (by decide) (by decide)

end QmlJs
